import Mathlib

/-!
Corrade `Containers::EnumSet`

A shallow embedding of `src/Containers/EnumSet.h`.

* The underlying type `U` is an unsigned integer type of `w` bits; its values are the
  natural numbers below `2 ^ w`.
* The enum type `T` is any type whose enumerators carry an integer value (`EnumType`).
* C++ evaluates `|`, `&` and `~` on operands of type `U` after the integral promotions:
  a `U` narrower than `int` is promoted to `int`, the operator is applied there, and the
  result is converted back to `U` (reduction modulo `2 ^ w`) when it is passed to the
  private constructor or assigned to the `value` field.  The embedding follows these
  steps one by one.
* The compound assignments mutate the receiver and return `*this`; they are embedded as
  a receiver-state transformer together with a call on a store of objects, in which the
  returned reference is the address of the receiver.
-/

namespace Corrade
namespace Containers

/-! ## The integer types -/

/-- Width of `int`, the target of the integral promotions. -/
def intBits : Nat := 32

/-- Conversion of an integer to the unsigned type `U` of `w` bits: `static_cast<U>(i)`,
also the implicit conversion applied when an `int` is stored into a `U`. -/
def castU (w : Nat) (i : Int) : Nat :=
  (i % ((2 ^ w : Nat) : Int)).toNat

/-- The operand `value` of type `U` as it enters a binary bitwise operator: the integral
promotions and the usual arithmetic conversions keep its mathematical value. -/
def promote (v : Nat) : Int := (v : Int)

/-- The C++ expression `x | y` on two promoted operands. -/
def bitOr (x y : Int) : Int := Int.lor x y

/-- The C++ expression `x & y` on two promoted operands. -/
def bitAnd (x y : Int) : Int := Int.land x y

/-- The C++ expression `~value` for `value` of the unsigned type `U` of `w` bits.
When `U` is narrower than `int` the operand is promoted to `int` and complemented
there, which gives the negative number `-value - 1`; otherwise the complement is taken
in `U` itself. -/
def bitNot (w : Nat) (v : Nat) : Int :=
  if w < intBits then ~~~(v : Int) else (((2 ^ w - 1 - v : Nat)) : Int)

/-- An enum type `T`: every enumerator has an integer value. -/
class EnumType (T : Type) where
  /-- The integer value of an enumerator. -/
  toInt : T → Int

/-! ## The class `EnumSet<T, U>` -/

/-- An object of `EnumSet<T, U>`: the single private field `value` of type `U`. -/
structure EnumSet (T : Type) (w : Nat) where
  /-- The field `UnderlyingType value`. -/
  value : Nat
  /-- The field has type `U`, an unsigned integer of `w` bits. -/
  isLt : value < 2 ^ w

theorem castU_lt (w : Nat) (i : Int) : castU w i < 2 ^ w := by
  unfold castU
  have hpos : (0 : Int) < ((2 ^ w : Nat) : Int) := by
    exact_mod_cast Nat.two_pow_pos w
  have h1 := Int.emod_lt_of_pos i hpos
  have h0 := Int.emod_nonneg i (ne_of_gt hpos)
  omega

namespace EnumSet

variable {T : Type} {w : Nat}

instance : DecidableEq (EnumSet T w) := fun a b =>
  if h : a.value = b.value then
    isTrue (by cases a; cases b; simp only [mk.injEq]; exact h)
  else
    isFalse (fun e => h (by rw [e]))

/-- The private constructor `explicit EnumSet(UnderlyingType type): value(type) {}`.
Its argument is an expression of the promoted type, converted to `U` at the call. -/
def ofUnderlying (type : Int) : EnumSet T w :=
  ⟨castU w type, castU_lt w type⟩

/-- The default constructor `EnumSet(): value() {}`: the field is value-initialised. -/
def empty : EnumSet T w :=
  ⟨0, Nat.two_pow_pos w⟩

/-- The constructor `EnumSet(T value): value(static_cast<UnderlyingType>(value)) {}`. -/
def ofEnum [EnumType T] (value : T) : EnumSet T w :=
  ⟨castU w (EnumType.toInt value), castU_lt w _⟩

/-- The member `operator|`: `return EnumSet<T, U>(value | other.value);`. -/
def or (self other : EnumSet T w) : EnumSet T w :=
  ofUnderlying (bitOr (promote self.value) (promote other.value))

/-- The receiver after `operator|=`: `value |= other.value;`. -/
def orAssign (self other : EnumSet T w) : EnumSet T w :=
  ⟨castU w (bitOr (promote self.value) (promote other.value)), castU_lt w _⟩

/-- The member `operator&`: `return EnumSet<T, U>(value & other.value);`. -/
def and (self other : EnumSet T w) : EnumSet T w :=
  ofUnderlying (bitAnd (promote self.value) (promote other.value))

/-- The receiver after `operator&=`: `value &= other.value;`. -/
def andAssign (self other : EnumSet T w) : EnumSet T w :=
  ⟨castU w (bitAnd (promote self.value) (promote other.value)), castU_lt w _⟩

/-- The member `operator~`: `return EnumSet<T, U>(~value);`. -/
def compl (self : EnumSet T w) : EnumSet T w :=
  ofUnderlying (bitNot w self.value)

/-- The member `explicit operator bool`: `return value == 0;`. -/
def toBool (self : EnumSet T w) : Bool :=
  self.value == 0

/-- The member `explicit operator UnderlyingType`: `return value;`. -/
def toUnderlying (self : EnumSet T w) : Nat :=
  self.value

end EnumSet

/-! ## The operators generated by `SET_OPERATORS` -/

/-- The free `operator|(class::Type a, class b)`: `return b | a;`, where `a` is converted
to a set by the converting constructor. -/
def enumOr {T : Type} {w : Nat} [EnumType T] (a : T) (b : EnumSet T w) : EnumSet T w :=
  b.or (EnumSet.ofEnum a)

/-- The free `operator&(class::Type a, class b)`: `return b & a;`. -/
def enumAnd {T : Type} {w : Nat} [EnumType T] (a : T) (b : EnumSet T w) : EnumSet T w :=
  b.and (EnumSet.ofEnum a)

/-! ## The example of the class documentation -/

/-- The enum of the class documentation: `enum class State: unsigned char`. -/
inductive State where
  | Ready
  | Waiting
  | Done
  deriving DecidableEq, Repr

instance : EnumType State where
  toInt
    | State.Ready => 1 <<< 0
    | State.Waiting => 1 <<< 1
    | State.Done => 1 <<< 2

/-- The set type of the class documentation: `typedef EnumSet<State, unsigned char> States;`. -/
abbrev States := EnumSet State 8

/-- An enum that breaks the requirement of the class documentation: its values 3 and 6
are not binary exclusive, they share bit 1. -/
inductive Overlap where
  | Low
  | High
  deriving DecidableEq, Repr

instance : EnumType Overlap where
  toInt
    | Overlap.Low => 3
    | Overlap.High => 6

/-- The bit pattern of an enumerator in `U`: `static_cast<UnderlyingType>(v)`. -/
def pattern {T : Type} (w : Nat) [EnumType T] (v : T) : Nat :=
  castU w (EnumType.toInt v)

/-- Bitwise OR of the bit patterns of a list of enumerators (zero for the empty list). -/
def orAll {T : Type} (w : Nat) [EnumType T] (l : List T) : Nat :=
  l.foldr (fun v acc => pattern w v ||| acc) 0

/-- The stored value is a bitwise-OR combination of zero or more enumerator patterns. -/
def IsCombination {T : Type} {w : Nat} [EnumType T] (s : EnumSet T w) : Prop :=
  ∃ l : List T, s.value = orAll w l

/-- The requirement of the class documentation: all the values are binary exclusive. -/
def BinaryExclusive (T : Type) (w : Nat) [EnumType T] : Prop :=
  ∀ u v : T, u ≠ v → pattern w u &&& pattern w v = 0

/-- Every enumerator pattern of `T` in `U` is a single bit. -/
def SingleBit (T : Type) (w : Nat) [EnumType T] : Prop :=
  ∀ v : T, ∃ k : Nat, pattern w v = 2 ^ k

/-- Sets obtained from the two public constructors by the public operations; the flag
says whether `operator~` is among the operations. -/
inductive Reachable {T : Type} {w : Nat} [EnumType T] (withCompl : Bool) :
    EnumSet T w → Prop where
  | empty : Reachable withCompl EnumSet.empty
  | ofEnum (v : T) : Reachable withCompl (EnumSet.ofEnum v)
  | or {a b : EnumSet T w} :
      Reachable withCompl a → Reachable withCompl b → Reachable withCompl (a.or b)
  | orAssign {a b : EnumSet T w} :
      Reachable withCompl a → Reachable withCompl b → Reachable withCompl (a.orAssign b)
  | and {a b : EnumSet T w} :
      Reachable withCompl a → Reachable withCompl b → Reachable withCompl (a.and b)
  | andAssign {a b : EnumSet T w} :
      Reachable withCompl a → Reachable withCompl b → Reachable withCompl (a.andAssign b)
  | compl {a : EnumSet T w} :
      withCompl = true → Reachable withCompl a → Reachable withCompl a.compl
  | enumOr (v : T) {a : EnumSet T w} :
      Reachable withCompl a → Reachable withCompl (enumOr v a)
  | enumAnd (v : T) {a : EnumSet T w} :
      Reachable withCompl a → Reachable withCompl (enumAnd v a)

/-! ## Objects in memory -/

/-- Address of an object. -/
abbrev Ref := Nat

/-- The objects of type `EnumSet<T, U>` in memory, by address. -/
def Store (T : Type) (w : Nat) := Ref → EnumSet T w

/-- Overwrite the object at address `r`. -/
def Store.write {T : Type} {w : Nat} (σ : Store T w) (r : Ref) (x : EnumSet T w) :
    Store T w :=
  fun r1 => if r1 = r then x else σ r1

/-- A call `a | b` of the `const` member `operator|` on the object at address `this`,
with the parameter `other` passed by value: the memory after the call and the result. -/
def callOr {T : Type} {w : Nat} (σ : Store T w) (this : Ref) (other : EnumSet T w) :
    Store T w × EnumSet T w :=
  (σ, (σ this).or other)

/-- A call `a & b` of the `const` member `operator&`. -/
def callAnd {T : Type} {w : Nat} (σ : Store T w) (this : Ref) (other : EnumSet T w) :
    Store T w × EnumSet T w :=
  (σ, (σ this).and other)

/-- A call `a |= b` of `operator|=` on the object at address `this`: the field of the
receiver is assigned and `*this` is returned by reference. -/
def callOrAssign {T : Type} {w : Nat} (σ : Store T w) (this : Ref) (other : EnumSet T w) :
    Store T w × Ref :=
  (σ.write this ((σ this).orAssign other), this)

/-- A call `a &= b` of `operator&=` on the object at address `this`. -/
def callAndAssign {T : Type} {w : Nat} (σ : Store T w) (this : Ref) (other : EnumSet T w) :
    Store T w × Ref :=
  (σ.write this ((σ this).andAssign other), this)

/-- A memory over the documented enum: the object at address 0 is the set of `Ready`,
at address 1 the set of `Waiting`, at address 2 `Ready | Waiting`, at address 3
`Waiting | Done`, and every other object is the set of `Done`. -/
def exampleStore : Store State 8 :=
  fun r =>
    if r = 0 then EnumSet.ofEnum State.Ready
    else if r = 1 then EnumSet.ofEnum State.Waiting
    else if r = 2 then (EnumSet.ofEnum State.Ready).or (EnumSet.ofEnum State.Waiting)
    else if r = 3 then (EnumSet.ofEnum State.Waiting).or (EnumSet.ofEnum State.Done)
    else EnumSet.ofEnum State.Done

end Containers

/-! ## The hash exercised by `Utility/Test/MurmurHash2Test.cpp` -/

namespace Utility

/-- The bytes behind `reinterpret_cast<const unsigned char*>("...")`: the characters of
the string literal followed by the terminating zero. -/
def cString (s : String) : List Nat :=
  s.toList.map Char.toNat ++ [0]

/-- Modelled from the spec: the byte `data[i]` of the byte buffer the hash consumes. -/
def byteAt (data : List Nat) (i : Nat) : Nat :=
  data.getD i 0 % 256

/-- Modelled from the spec: the `n` bytes from `offset` on read as one unsigned integer,
least significant byte first. -/
def loadLE (data : List Nat) (offset : Nat) (n : Nat) : Nat :=
  (List.range n).foldl (fun acc j => acc ||| (byteAt data (offset + j) <<< (8 * j))) 0

/-- Modelled from the spec: the bytes left after the last whole word, mixed into the hash
one by one, the highest first. -/
def mixTail (data : List Nat) (offset : Nat) (rest : Nat) (h : Nat) : Nat :=
  (List.range rest).reverse.foldl (fun acc j => acc ^^^ (byteAt data (offset + j) <<< (8 * j))) h

/-- Modelled from the spec: the 32-bit variant of the hash of `Utility/MurmurHash2.h`,
which is not among the sources.  The spec gives its contract only: a keyed hash with an
integer seed that consumes a byte buffer and its length and produces a 32-bit unsigned
digest.  The body is the published MurmurHash2 algorithm, which the test names, with
all arithmetic modulo `2 ^ 32`. -/
def murmur32 (seed : Nat) (data : List Nat) (size : Nat) : Nat :=
  let m : Nat := 0x5bd1e995
  let r : Nat := 24
  let h0 := (seed ^^^ size) % 2 ^ 32
  let h1 := (List.range (size / 4)).foldl (fun h j =>
    let k0 := loadLE data (4 * j) 4
    let k1 := (k0 * m) % 2 ^ 32
    let k2 := k1 ^^^ (k1 >>> r)
    let k3 := (k2 * m) % 2 ^ 32
    ((h * m) % 2 ^ 32) ^^^ k3) h0
  let rest := size % 4
  let h2 := if rest = 0 then h1 else (mixTail data (size - rest) rest h1 * m) % 2 ^ 32
  let h3 := h2 ^^^ (h2 >>> 13)
  let h4 := (h3 * m) % 2 ^ 32
  h4 ^^^ (h4 >>> 15)

/-- Modelled from the spec: the 64-bit variant of the hash of `Utility/MurmurHash2.h`,
which is not among the sources.  The spec gives its contract only: a keyed hash with an
integer seed that consumes a byte buffer and its length and produces a 64-bit unsigned
digest.  The body is the published 64-bit MurmurHash2 algorithm, with all arithmetic
modulo `2 ^ 64`. -/
def murmur64 (seed : Nat) (data : List Nat) (size : Nat) : Nat :=
  let m : Nat := 0xc6a4a7935bd1e995
  let r : Nat := 47
  let h0 := (seed ^^^ ((size * m) % 2 ^ 64)) % 2 ^ 64
  let h1 := (List.range (size / 8)).foldl (fun h j =>
    let k0 := loadLE data (8 * j) 8
    let k1 := (k0 * m) % 2 ^ 64
    let k2 := k1 ^^^ (k1 >>> r)
    let k3 := (k2 * m) % 2 ^ 64
    ((h ^^^ k3) * m) % 2 ^ 64) h0
  let rest := size % 8
  let h2 := if rest = 0 then h1 else (mixTail data (size - rest) rest h1 * m) % 2 ^ 64
  let h3 := h2 ^^^ (h2 >>> r)
  let h4 := (h3 * m) % 2 ^ 64
  h4 ^^^ (h4 >>> r)

/-- Modelled from the spec: the family `MurmurHash2Implementation<width>(seed)(data, size)`
of `Utility/MurmurHash2.h`, parameterised by the output width in bytes; only the widths 4
and 8 exist. -/
def MurmurHash2Implementation (width : Nat) (seed : Nat) (data : List Nat) (size : Nat) :
    Option Nat :=
  match width with
  | 4 => some (murmur32 seed data size)
  | 8 => some (murmur64 seed data size)
  | _ => none

/-- The test `MurmurHash2Test::test32`: both comparisons succeed. -/
def test32 : Bool :=
  (MurmurHash2Implementation 4 23 (cString "string") 6 == some 3435905073) &&
  (MurmurHash2Implementation 4 23 (cString "four") 4 == some 2072697618)

/-- The test `MurmurHash2Test::test64`: both comparisons succeed. -/
def test64 : Bool :=
  (MurmurHash2Implementation 8 23 (cString "string") 6 == some 7441339218310318127) &&
  (MurmurHash2Implementation 8 23 (cString "eightbit") 8 == some 14685337704530366946)

end Utility

namespace Containers

/-! ## Arithmetic of the conversions -/

theorem castU_natCast {w v : Nat} (h : v < 2 ^ w) : castU w (v : Int) = v := by
  unfold castU
  have h1 : ((v : Int)) % ((2 ^ w : Nat) : Int) = (v : Int) :=
    Int.emod_eq_of_lt (Int.ofNat_nonneg v) (by exact_mod_cast h)
  rw [h1]
  exact Int.toNat_ofNat v

theorem bitOr_promote (a b : Nat) : bitOr (promote a) (promote b) = ((a ||| b : Nat) : Int) :=
  rfl

theorem bitAnd_promote (a b : Nat) :
    bitAnd (promote a) (promote b) = ((a &&& b : Nat) : Int) :=
  rfl

theorem castU_bitNot {w v : Nat} (h : v < 2 ^ w) : castU w (bitNot w v) = 2 ^ w - 1 - v := by
  unfold bitNot
  split
  · unfold castU
    have e : ~~~(v : Int) = -(v : Int) - 1 := by
      show Int.not (Int.ofNat v) = _
      simp only [Int.not, Int.negSucc_eq]
      omega
    have hm : (-(v : Int) - 1) % ((2 ^ w : Nat) : Int) = ((2 ^ w - 1 - v : Nat) : Int) := by
      have h2 : (-(v : Int) - 1) % ((2 ^ w : Nat) : Int)
          = (-(v : Int) - 1 + ((2 ^ w : Nat) : Int)) % ((2 ^ w : Nat) : Int) := by
        rw [Int.add_emod_self]
      rw [h2]
      have h3 : (-(v : Int) - 1 + ((2 ^ w : Nat) : Int)) = ((2 ^ w - 1 - v : Nat) : Int) := by
        omega
      rw [h3]
      exact Int.emod_eq_of_lt (Int.ofNat_nonneg _) (by exact_mod_cast (by omega))
    rw [e, hm]
    exact Int.toNat_ofNat _
  · exact castU_natCast (by omega)

namespace EnumSet

variable {T : Type} {w : Nat}

theorem ext_value {a b : EnumSet T w} (h : a.value = b.value) : a = b := by
  cases a; cases b; simp only [mk.injEq]; exact h

theorem or_value (a b : EnumSet T w) : (a.or b).value = a.value ||| b.value := by
  show castU w (bitOr (promote a.value) (promote b.value)) = _
  rw [bitOr_promote]
  exact castU_natCast (Nat.or_lt_two_pow a.isLt b.isLt)

theorem and_value (a b : EnumSet T w) : (a.and b).value = a.value &&& b.value := by
  show castU w (bitAnd (promote a.value) (promote b.value)) = _
  rw [bitAnd_promote]
  exact castU_natCast (Nat.and_lt_two_pow _ b.isLt)

theorem orAssign_eq_or (a b : EnumSet T w) : a.orAssign b = a.or b := rfl

theorem andAssign_eq_and (a b : EnumSet T w) : a.andAssign b = a.and b := rfl

theorem compl_value (a : EnumSet T w) : a.compl.value = 2 ^ w - 1 - a.value :=
  castU_bitNot a.isLt

theorem empty_value : (empty : EnumSet T w).value = 0 := rfl

theorem ofEnum_value [EnumType T] (v : T) : (ofEnum v : EnumSet T w).value = pattern w v := rfl

theorem testBit_eq_false_of_le (a : EnumSet T w) {k : Nat} (h : w ≤ k) :
    a.value.testBit k = false :=
  Nat.testBit_lt_two_pow (Nat.lt_of_lt_of_le a.isLt (Nat.pow_le_pow_right (by decide) h))

theorem compl_testBit (a : EnumSet T w) (k : Nat) :
    a.compl.value.testBit k = (decide (k < w) && !a.value.testBit k) := by
  rw [compl_value]
  have e : 2 ^ w - 1 - a.value = 2 ^ w - (a.value + 1) := by omega
  rw [e]
  exact Nat.testBit_two_pow_sub_succ a.isLt k

theorem or_comm (a b : EnumSet T w) : a.or b = b.or a :=
  ext_value (by rw [or_value, or_value, Nat.or_comm])

theorem and_comm (a b : EnumSet T w) : a.and b = b.and a :=
  ext_value (by rw [and_value, and_value, Nat.and_comm])

theorem or_self (a : EnumSet T w) : a.or a = a :=
  ext_value (by rw [or_value, Nat.or_self])

theorem and_self (a : EnumSet T w) : a.and a = a :=
  ext_value (by rw [and_value, Nat.and_self])

theorem Store.write_self (σ : Store T w) (r : Ref) : σ.write r (σ r) = σ := by
  funext r1
  unfold Store.write
  split
  · next h => rw [h]
  · rfl

end EnumSet

/-! ## Combinations of enumerator patterns -/

section Combination

variable {T : Type} {w : Nat} [EnumType T]

theorem pattern_lt (v : T) : pattern w v < 2 ^ w :=
  castU_lt w _

theorem orAll_nil : orAll w ([] : List T) = 0 := rfl

theorem orAll_cons (v : T) (l : List T) : orAll w (v :: l) = pattern w v ||| orAll w l := rfl

theorem orAll_append (l m : List T) : orAll w (l ++ m) = orAll w l ||| orAll w m := by
  induction l with
  | nil => simp [orAll_nil]
  | cons v l ih => simp only [List.cons_append, orAll_cons, ih, Nat.or_assoc]

theorem pattern_and_orAll [DecidableEq T] (h : BinaryExclusive T w) (u : T) (l : List T) :
    pattern w u &&& orAll w l = if u ∈ l then pattern w u else 0 := by
  induction l with
  | nil => simp [orAll_nil]
  | cons v l ih =>
    rw [orAll_cons, Nat.and_or_distrib_left, ih]
    by_cases huv : u = v
    · subst huv
      simp only [Nat.and_self, List.mem_cons, true_or, if_true]
      split <;> simp
    · rw [h u v huv]
      simp [huv]

theorem orAll_and_orAll [DecidableEq T] (h : BinaryExclusive T w) (l m : List T) :
    orAll w l &&& orAll w m = orAll w (l.filter (fun u => decide (u ∈ m))) := by
  induction l with
  | nil => simp [orAll_nil]
  | cons v l ih =>
    rw [orAll_cons, Nat.and_distrib_right, ih, pattern_and_orAll h]
    by_cases hv : v ∈ m
    · simp [hv, orAll_cons]
    · simp [hv]

theorem isCombination_empty : IsCombination (EnumSet.empty : EnumSet T w) :=
  ⟨[], rfl⟩

theorem isCombination_ofEnum (v : T) : IsCombination (EnumSet.ofEnum v : EnumSet T w) :=
  ⟨[v], by rw [orAll_cons, orAll_nil, Nat.or_zero]; rfl⟩

theorem isCombination_or {a b : EnumSet T w} (ha : IsCombination a) (hb : IsCombination b) :
    IsCombination (a.or b) := by
  obtain ⟨l, hl⟩ := ha
  obtain ⟨m, hm⟩ := hb
  exact ⟨l ++ m, by rw [EnumSet.or_value, orAll_append, hl, hm]⟩

theorem isCombination_and (h : BinaryExclusive T w) {a b : EnumSet T w}
    (ha : IsCombination a) (hb : IsCombination b) : IsCombination (a.and b) := by
  classical
  obtain ⟨l, hl⟩ := ha
  obtain ⟨m, hm⟩ := hb
  exact ⟨l.filter (fun u => decide (u ∈ m)),
    by rw [EnumSet.and_value, hl, hm, orAll_and_orAll h]⟩

theorem orAll_absorb {v : T} {m : List T} (h : v ∈ m) :
    pattern w v ||| orAll w m = orAll w m := by
  induction m with
  | nil => cases h
  | cons u m ih =>
    rw [orAll_cons]
    rcases List.mem_cons.mp h with e | hm
    · subst e
      rw [← Nat.or_assoc, Nat.or_self]
    · rw [← Nat.or_assoc, Nat.or_comm (pattern w v), Nat.or_assoc, ih hm]

theorem orAll_subset {l m : List T} (h : ∀ x, x ∈ l → x ∈ m) :
    orAll w l ||| orAll w m = orAll w m := by
  induction l with
  | nil => rw [orAll_nil, Nat.zero_or]
  | cons v l ih =>
    rw [orAll_cons, Nat.or_assoc, ih (fun x hx => h x (List.mem_cons_of_mem v hx))]
    exact orAll_absorb (h v (List.mem_cons_self v l))

theorem orAll_congr {l m : List T} (h : ∀ x, x ∈ l ↔ x ∈ m) : orAll w l = orAll w m := by
  have h1 : orAll w l ||| orAll w m = orAll w m := orAll_subset (fun x hx => (h x).mp hx)
  have h2 : orAll w m ||| orAll w l = orAll w l := orAll_subset (fun x hx => (h x).mpr hx)
  rw [← h1, Nat.or_comm]
  exact h2.symm

end Combination

/-! ## Single bits -/

theorem nat_or_eq_zero {a b : Nat} : a ||| b = 0 ↔ a = 0 ∧ b = 0 := by
  constructor
  · intro h
    have hk : ∀ k, (a.testBit k || b.testBit k) = false := by
      intro k
      rw [← Nat.testBit_or, h, Nat.zero_testBit]
    constructor
    · refine Nat.eq_of_testBit_eq (fun k => ?_)
      have := hk k
      rw [Nat.zero_testBit]
      cases hA : a.testBit k <;> simp_all
    · refine Nat.eq_of_testBit_eq (fun k => ?_)
      have := hk k
      rw [Nat.zero_testBit]
      cases hB : b.testBit k <;> simp_all
  · rintro ⟨rfl, rfl⟩
    rfl

theorem nat_and_two_pow_eq_zero {s k : Nat} : s &&& 2 ^ k = 0 ↔ s.testBit k = false := by
  constructor
  · intro h
    have := Nat.testBit_and s (2 ^ k) k
    rw [h, Nat.zero_testBit, Nat.testBit_two_pow_self, Bool.and_true] at this
    exact this.symm
  · intro h
    refine Nat.eq_of_testBit_eq (fun i => ?_)
    rw [Nat.testBit_and, Nat.testBit_two_pow, Nat.zero_testBit]
    by_cases hi : k = i
    · subst hi
      simp [h]
    · simp [hi]

theorem nat_and_two_pow_eq_self {s k : Nat} : s &&& 2 ^ k = 2 ^ k ↔ s.testBit k = true := by
  constructor
  · intro h
    have := Nat.testBit_and s (2 ^ k) k
    rw [h, Nat.testBit_two_pow_self, Bool.and_true] at this
    exact this.symm
  · intro h
    refine Nat.eq_of_testBit_eq (fun i => ?_)
    rw [Nat.testBit_and, Nat.testBit_two_pow]
    by_cases hi : k = i
    · subst hi
      simp [h]
    · simp [hi]

/-! ## The enum with overlapping values -/

theorem overlap_orAll_cases (l : List Overlap) :
    orAll 8 l = 0 ∨ orAll 8 l = 3 ∨ orAll 8 l = 6 ∨ orAll 8 l = 7 := by
  induction l with
  | nil => exact Or.inl rfl
  | cons v l ih =>
    rw [orAll_cons]
    cases v <;> rcases ih with h | h | h | h <;> rw [h] <;> decide

/-! ## The enum of the class documentation -/

theorem state_binaryExclusive : BinaryExclusive State 8 := by
  intro u v huv
  cases u <;> cases v <;> first | exact absurd rfl huv | decide

theorem state_singleBit : SingleBit State 8 := by
  intro v
  cases v
  · exact ⟨0, by decide⟩
  · exact ⟨1, by decide⟩
  · exact ⟨2, by decide⟩

theorem state_orAll_lt (l : List State) : orAll 8 l < 2 ^ 3 := by
  induction l with
  | nil => decide
  | cons v l ih =>
    rw [orAll_cons]
    refine Nat.or_lt_two_pow ?_ ih
    cases v <;> decide

/-! ## The claims -/

section Claims

variable {T : Type} {w : Nat}

/-- C1: the explicit boolean conversion of a set is true exactly when the stored value is
zero and false exactly when it is not; the default-constructed set converts to true, and
the set built from an enumerator whose bit pattern is not zero converts to false. -/
theorem toBool_iff_value_eq_zero [EnumType T] (s : EnumSet T w) (v : T) :
    (s.toBool = true ↔ s.value = 0) ∧
    (s.toBool = false ↔ s.value ≠ 0) ∧
    (EnumSet.empty : EnumSet T w).toBool = true ∧
    (pattern w v ≠ 0 → (EnumSet.ofEnum v : EnumSet T w).toBool = false) := by
  refine ⟨?_, ?_, rfl, ?_⟩
  · simp [EnumSet.toBool]
  · simp [EnumSet.toBool]
  · intro hv
    simp [EnumSet.toBool, EnumSet.ofEnum_value, hv]

/-- Witness of C1 on the documented enum: the set of `Waiting` and the enumerator `Ready`. -/
theorem toBool_iff_value_eq_zero_witness :
    pattern 8 State.Ready ≠ 0 ∧ (EnumSet.ofEnum State.Ready : States).toBool = false :=
  ⟨by decide,
    (toBool_iff_value_eq_zero (EnumSet.ofEnum State.Waiting : States) State.Ready).2.2.2
      (by decide)⟩

/-- C2, as stated, fails: for the documented enum `State` over `unsigned char`, whose
patterns are pairwise disjoint single bits, the complement of the default-constructed set
is reachable by the public operations, stores 255, and is not a bitwise-OR combination
of enumerator patterns. -/
theorem reachable_compl_not_isCombination :
    BinaryExclusive State 8 ∧ SingleBit State 8 ∧
    Reachable true (EnumSet.empty.compl : States) ∧
    (EnumSet.empty.compl : States).value = 255 ∧
    ¬ IsCombination (EnumSet.empty.compl : States) := by
  refine ⟨state_binaryExclusive, state_singleBit,
    Reachable.compl rfl Reachable.empty, by decide, ?_⟩
  rintro ⟨l, hl⟩
  have h1 : (EnumSet.empty.compl : States).value = 255 := by decide
  have h2 := state_orAll_lt l
  omega

/-- C2, amended: when the enumerator patterns of `T` are pairwise binary exclusive, every
set reachable from the two public constructors by the public operations other than the
complement has a stored value that is a bitwise-OR combination of enumerator patterns. -/
theorem reachable_isCombination [EnumType T] (h : BinaryExclusive T w) (s : EnumSet T w)
    (hr : Reachable false s) : IsCombination s := by
  induction hr with
  | empty => exact isCombination_empty
  | ofEnum v => exact isCombination_ofEnum v
  | or _ _ iha ihb => exact isCombination_or iha ihb
  | orAssign _ _ iha ihb => exact isCombination_or iha ihb
  | and _ _ iha ihb => exact isCombination_and h iha ihb
  | andAssign _ _ iha ihb => exact isCombination_and h iha ihb
  | compl hc _ _ => exact absurd hc (by decide)
  | enumOr v _ ih => exact isCombination_or ih (isCombination_ofEnum v)
  | enumAnd v _ ih => exact isCombination_and h ih (isCombination_ofEnum v)

/-- Witness of the amended C2: `Waiting & (Ready | Waiting)` over the documented enum. -/
theorem reachable_isCombination_witness :
    BinaryExclusive State 8 ∧
    Reachable false
      (enumAnd State.Waiting
        ((EnumSet.ofEnum State.Ready).or (EnumSet.ofEnum State.Waiting)) : States) ∧
    IsCombination
      (enumAnd State.Waiting
        ((EnumSet.ofEnum State.Ready).or (EnumSet.ofEnum State.Waiting)) : States) :=
  ⟨state_binaryExclusive,
    Reachable.enumAnd _ (Reachable.or (Reachable.ofEnum _) (Reachable.ofEnum _)),
    reachable_isCombination state_binaryExclusive _
      (Reachable.enumAnd _ (Reachable.or (Reachable.ofEnum _) (Reachable.ofEnum _)))⟩

/-- C3: the stored value of `a | b` is the bitwise OR of the stored values of `a` and
`b`; a call of the operator on objects in memory returns that set and leaves the memory,
hence `a` and `b`, as it was; the empty set united with the set of `Ready` stores 1. -/
theorem or_spec (a b : EnumSet T w) (σ : Store T w) (ra rb : Ref) :
    (a.or b).toUnderlying = a.toUnderlying ||| b.toUnderlying ∧
    (callOr σ ra (σ rb)).2.value = (σ ra).value ||| (σ rb).value ∧
    (callOr σ ra (σ rb)).1 = σ ∧
    ((EnumSet.empty : States).or (EnumSet.ofEnum State.Ready)).toUnderlying = 1 :=
  ⟨EnumSet.or_value a b, EnumSet.or_value _ _, rfl, by decide⟩

/-- C4: the stored value of `a & b` is the bitwise AND of the stored values of `a` and
`b`; a call of the operator on objects in memory returns that set and leaves the memory,
hence `a` and `b`, as it was; `(Ready|Waiting) & (Waiting|Done)` stores 2. -/
theorem and_spec (a b : EnumSet T w) (σ : Store T w) (ra rb : Ref) :
    (a.and b).toUnderlying = a.toUnderlying &&& b.toUnderlying ∧
    (callAnd σ ra (σ rb)).2.value = (σ ra).value &&& (σ rb).value ∧
    (callAnd σ ra (σ rb)).1 = σ ∧
    ((((EnumSet.ofEnum State.Ready).or (EnumSet.ofEnum State.Waiting)).and
      ((EnumSet.ofEnum State.Waiting).or (EnumSet.ofEnum State.Done)) : States)).toUnderlying
      = 2 :=
  ⟨EnumSet.and_value a b, EnumSet.and_value _ _, rfl, by decide⟩

/-- C5: the stored value of `~a` is the bitwise NOT of the stored value of `a` in the
`w` bits of `U`, that is `(2 ^ w - 1) - value`: bit `k` of the result is set exactly when
`k < w` and bit `k` of `a` is clear.  This holds for every width, also below that of
`int`; for `unsigned char` the complement of the default-constructed set stores 255. -/
theorem compl_spec (a : EnumSet T w) :
    a.compl.toUnderlying = (2 ^ w - 1) - a.toUnderlying ∧
    (∀ k : Nat, a.compl.value.testBit k = (decide (k < w) && !a.value.testBit k)) ∧
    (EnumSet.empty.compl : States).toUnderlying = 255 := by
  refine ⟨EnumSet.compl_value a, ?_, by decide⟩
  intro k
  rw [EnumSet.compl_value]
  have e : 2 ^ w - 1 - a.value = 2 ^ w - (a.value + 1) := by omega
  rw [e]
  exact Nat.testBit_two_pow_sub_succ a.isLt k

/-- C6: constructing a set from a single enumerator and converting it to the underlying
type gives the bit pattern of casting the enumerator to `U`; when the enumerator's integer
value fits `U`, it is that value itself. -/
theorem ofEnum_toUnderlying [EnumType T] (v : T) :
    (EnumSet.ofEnum v : EnumSet T w).toUnderlying = castU w (EnumType.toInt v) ∧
    (0 ≤ EnumType.toInt v → EnumType.toInt v < 2 ^ w →
      (((EnumSet.ofEnum v : EnumSet T w).toUnderlying : Nat) : Int) = EnumType.toInt v) := by
  refine ⟨rfl, ?_⟩
  intro h0 h1
  show ((castU w (EnumType.toInt v) : Nat) : Int) = _
  obtain ⟨n, hn⟩ := Int.eq_ofNat_of_zero_le h0
  rw [hn] at h1 ⊢
  rw [castU_natCast (by exact_mod_cast h1)]

/-- Witness of C6: the enumerator `Done` of the documented enum, stored as 4. -/
theorem ofEnum_toUnderlying_witness :
    (0 : Int) ≤ EnumType.toInt State.Done ∧ EnumType.toInt State.Done < 2 ^ 8 ∧
    (((EnumSet.ofEnum State.Done : States).toUnderlying : Nat) : Int)
      = EnumType.toInt State.Done :=
  ⟨by decide, by decide,
    (ofEnum_toUnderlying State.Done).2 (by decide) (by decide)⟩

/-- C7: a call `a |= b` leaves in the receiver the union of its old value and `b`,
changes no other object and not `b`, and returns the address of the receiver, so the
returned reference designates the new `a`; a second call on the returned reference,
`(a |= b) |= c`, leaves `old(a) | b | c` in `a`, whether the argument `c` is copied before
or after the first call.  In stored integers: the receiver holds the bitwise OR of its
old value and the value of `b`, and after the chain the bitwise OR of the three values;
with `a` the set of `Ready` and `b` the set of `Waiting`, `a |= b` stores 3 in `a` and
`(a |= b) |= c` with `c` the set of `Done` stores 7. -/
theorem callOrAssign_spec (σ : Store T w) (ra rb rc : Ref) :
    (callOrAssign σ ra (σ rb)).1 ra = (σ ra).or (σ rb) ∧
    (callOrAssign σ ra (σ rb)).1 rb = σ rb ∧
    (callOrAssign σ ra (σ rb)).1 = σ.write ra ((σ ra).or (σ rb)) ∧
    (callOrAssign σ ra (σ rb)).2 = ra ∧
    (callOrAssign σ ra (σ rb)).1 (callOrAssign σ ra (σ rb)).2 = (σ ra).or (σ rb) ∧
    (callOrAssign (callOrAssign σ ra (σ rb)).1 (callOrAssign σ ra (σ rb)).2 (σ rc)).1 ra
      = ((σ ra).or (σ rb)).or (σ rc) ∧
    (callOrAssign (callOrAssign σ ra (σ rb)).1 (callOrAssign σ ra (σ rb)).2
        ((callOrAssign σ ra (σ rb)).1 rc)).1 ra
      = ((σ ra).or (σ rb)).or (σ rc) ∧
    (callOrAssign (callOrAssign σ ra (σ rb)).1 (callOrAssign σ ra (σ rb)).2 (σ rc)).2
      = ra ∧
    ((callOrAssign σ ra (σ rb)).1 ra).toUnderlying
      = (σ ra).toUnderlying ||| (σ rb).toUnderlying ∧
    ((callOrAssign σ ra (σ rb)).1 (callOrAssign σ ra (σ rb)).2).toUnderlying
      = (σ ra).toUnderlying ||| (σ rb).toUnderlying ∧
    ((callOrAssign (callOrAssign σ ra (σ rb)).1 (callOrAssign σ ra (σ rb)).2
        (σ rc)).1 ra).toUnderlying
      = ((σ ra).toUnderlying ||| (σ rb).toUnderlying) ||| (σ rc).toUnderlying ∧
    ((callOrAssign (callOrAssign σ ra (σ rb)).1 (callOrAssign σ ra (σ rb)).2
        ((callOrAssign σ ra (σ rb)).1 rc)).1 ra).toUnderlying
      = ((σ ra).toUnderlying ||| (σ rb).toUnderlying) ||| (σ rc).toUnderlying ∧
    ((callOrAssign exampleStore 0 (exampleStore 1)).1 0).toUnderlying = 3 ∧
    ((callOrAssign exampleStore 0 (exampleStore 1)).1 1).toUnderlying = 2 ∧
    ((callOrAssign (callOrAssign exampleStore 0 (exampleStore 1)).1
        (callOrAssign exampleStore 0 (exampleStore 1)).2 (exampleStore 4)).1 0).toUnderlying
      = 7 := by
  have hrecv : (callOrAssign σ ra (σ rb)).1 ra = (σ ra).or (σ rb) := by
    simp [callOrAssign, Store.write, EnumSet.orAssign_eq_or]
  have hchain :
      (callOrAssign (callOrAssign σ ra (σ rb)).1 (callOrAssign σ ra (σ rb)).2 (σ rc)).1 ra
        = ((σ ra).or (σ rb)).or (σ rc) := by
    simp [callOrAssign, Store.write, EnumSet.orAssign_eq_or]
  have hchain2 :
      (callOrAssign (callOrAssign σ ra (σ rb)).1 (callOrAssign σ ra (σ rb)).2
          ((callOrAssign σ ra (σ rb)).1 rc)).1 ra
        = ((σ ra).or (σ rb)).or (σ rc) := by
    by_cases h : rc = ra
    · subst h
      simp only [callOrAssign, Store.write, if_true, EnumSet.orAssign_eq_or]
      refine EnumSet.ext_value ?_
      simp only [EnumSet.or_value]
      rw [Nat.or_self, Nat.or_assoc, Nat.or_comm (σ rb).value, ← Nat.or_assoc, Nat.or_self]
    · simp [callOrAssign, Store.write, h, EnumSet.orAssign_eq_or]
  have hval : ((σ ra).or (σ rb)).toUnderlying
      = (σ ra).toUnderlying ||| (σ rb).toUnderlying := EnumSet.or_value _ _
  have hval3 : (((σ ra).or (σ rb)).or (σ rc)).toUnderlying
      = ((σ ra).toUnderlying ||| (σ rb).toUnderlying) ||| (σ rc).toUnderlying := by
    show (((σ ra).or (σ rb)).or (σ rc)).value = _
    rw [EnumSet.or_value, EnumSet.or_value]
    rfl
  refine ⟨hrecv, ?_, rfl, rfl, hrecv, hchain, hchain2, rfl, ?_, ?_, ?_, ?_,
    by decide, by decide, by decide⟩
  · by_cases h : rb = ra
    · subst h
      simp only [callOrAssign, Store.write, if_true, EnumSet.orAssign_eq_or]
      exact EnumSet.ext_value (by rw [EnumSet.or_value, Nat.or_self])
    · simp [callOrAssign, Store.write, h]
  · rw [hrecv]; exact hval
  · show ((callOrAssign σ ra (σ rb)).1 ra).toUnderlying = _
    rw [hrecv]; exact hval
  · rw [hchain]; exact hval3
  · rw [hchain2]; exact hval3

/-- C8: a call `a &= b` leaves in the receiver the intersection of its old value and
`b`, changes no other object and not `b`, and returns the address of the receiver; the
object behind the returned reference is the result of the non-mutating `old(a) & b`.
In stored integers: the receiver holds the bitwise AND of its old value and the value of
`b`; with `a` the set `Ready | Waiting` and `b` the set `Waiting | Done`, `a &= b` stores
2 in `a` and leaves 6 in `b`. -/
theorem callAndAssign_spec (σ : Store T w) (ra rb : Ref) :
    (callAndAssign σ ra (σ rb)).1 ra = (σ ra).and (σ rb) ∧
    (callAndAssign σ ra (σ rb)).1 rb = σ rb ∧
    (callAndAssign σ ra (σ rb)).1 = σ.write ra ((σ ra).and (σ rb)) ∧
    (callAndAssign σ ra (σ rb)).2 = ra ∧
    (callAndAssign σ ra (σ rb)).1 (callAndAssign σ ra (σ rb)).2
      = (callAnd σ ra (σ rb)).2 ∧
    ((callAndAssign σ ra (σ rb)).1 ra).toUnderlying
      = (σ ra).toUnderlying &&& (σ rb).toUnderlying ∧
    ((callAndAssign σ ra (σ rb)).1 (callAndAssign σ ra (σ rb)).2).toUnderlying
      = (σ ra).toUnderlying &&& (σ rb).toUnderlying ∧
    ((callAndAssign exampleStore 2 (exampleStore 3)).1 2).toUnderlying = 2 ∧
    ((callAndAssign exampleStore 2 (exampleStore 3)).1 3).toUnderlying = 6 := by
  have hrecv : (callAndAssign σ ra (σ rb)).1 ra = (σ ra).and (σ rb) := by
    simp [callAndAssign, Store.write, EnumSet.andAssign_eq_and]
  have hval : ((σ ra).and (σ rb)).toUnderlying
      = (σ ra).toUnderlying &&& (σ rb).toUnderlying := EnumSet.and_value _ _
  refine ⟨hrecv, ?_, rfl, rfl, ?_, ?_, ?_, by decide, by decide⟩
  · by_cases h : rb = ra
    · subst h
      simp only [callAndAssign, Store.write, if_true, EnumSet.andAssign_eq_and]
      exact EnumSet.ext_value (by rw [EnumSet.and_value, Nat.and_self])
    · simp [callAndAssign, Store.write, h]
  · simp [callAndAssign, callAnd, Store.write, EnumSet.andAssign_eq_and]
  · rw [hrecv]; exact hval
  · show ((callAndAssign σ ra (σ rb)).1 ra).toUnderlying = _
    rw [hrecv]; exact hval

/-- C9: the free operators with the enumerator on the left give the same sets as the
member operators with the enumerator on the right: `v | s` is `s | v` and `v & s` is
`s & v`, with stored values `value(s) OR cast(v)` and `value(s) AND cast(v)`. -/
theorem enumOr_enumAnd_spec [EnumType T] (v : T) (s : EnumSet T w) :
    enumOr v s = s.or (EnumSet.ofEnum v) ∧
    enumAnd v s = s.and (EnumSet.ofEnum v) ∧
    (enumOr v s).toUnderlying = s.toUnderlying ||| castU w (EnumType.toInt v) ∧
    (enumAnd v s).toUnderlying = s.toUnderlying &&& castU w (EnumType.toInt v) :=
  ⟨rfl, rfl, EnumSet.or_value _ _, EnumSet.and_value _ _⟩

/-- C10: the default-constructed set, whose stored value is 0, is the identity of union
on both sides: `a | EnumSet()` and `EnumSet() | a` both equal `a`. -/
theorem or_empty_identity (a : EnumSet T w) :
    (EnumSet.empty : EnumSet T w).toUnderlying = 0 ∧
    a.or EnumSet.empty = a ∧ EnumSet.empty.or a = a :=
  ⟨rfl,
    EnumSet.ext_value (by rw [EnumSet.or_value, EnumSet.empty_value, Nat.or_zero]),
    EnumSet.ext_value (by rw [EnumSet.or_value, EnumSet.empty_value, Nat.zero_or])⟩

/-- C11: union and intersection are commutative: `a | b` equals `b | a` and `a & b`
equals `b & a`, as sets and so in their stored values. -/
theorem or_and_comm (a b : EnumSet T w) :
    a.or b = b.or a ∧ a.and b = b.and a ∧
    (a.or b).toUnderlying = (b.or a).toUnderlying ∧
    (a.and b).toUnderlying = (b.and a).toUnderlying :=
  ⟨EnumSet.or_comm a b, EnumSet.and_comm a b,
    congrArg EnumSet.toUnderlying (EnumSet.or_comm a b),
    congrArg EnumSet.toUnderlying (EnumSet.and_comm a b)⟩

/-- C12: union and intersection are associative: `(a | b) | c` equals `a | (b | c)` and
`(a & b) & c` equals `a & (b & c)`. -/
theorem or_and_assoc (a b c : EnumSet T w) :
    (a.or b).or c = a.or (b.or c) ∧ (a.and b).and c = a.and (b.and c) :=
  ⟨EnumSet.ext_value (by simp only [EnumSet.or_value, Nat.or_assoc]),
    EnumSet.ext_value (by simp only [EnumSet.and_value, Nat.and_assoc])⟩

/-- C13: the complement of the default-constructed set, which stores all `w` bits of
`U`, is the identity of intersection on both sides: `a & ~EnumSet()` and `~EnumSet() & a`
both equal `a`. -/
theorem and_compl_empty_identity (a : EnumSet T w) :
    (EnumSet.empty.compl : EnumSet T w).toUnderlying = 2 ^ w - 1 ∧
    a.and EnumSet.empty.compl = a ∧ EnumSet.empty.compl.and a = a := by
  have hfull : (EnumSet.empty.compl : EnumSet T w).value = 2 ^ w - 1 := by
    rw [EnumSet.compl_value, EnumSet.empty_value, Nat.sub_zero]
  have h1 : a.and EnumSet.empty.compl = a :=
    EnumSet.ext_value (by
      rw [EnumSet.and_value, hfull]
      exact Nat.and_pow_two_sub_one_of_lt_two_pow a.isLt)
  exact ⟨hfull, h1, by rw [EnumSet.and_comm]; exact h1⟩

/-- C14: union and intersection are idempotent: `a & a` and `a | a` equal `a`; the calls
`a |= a` and `a &= a` leave the receiver, and the whole memory, unchanged. -/
theorem or_and_idempotent (a : EnumSet T w) (σ : Store T w) (ra : Ref) :
    a.and a = a ∧ a.or a = a ∧
    (callOrAssign σ ra (σ ra)).1 ra = σ ra ∧
    (callAndAssign σ ra (σ ra)).1 ra = σ ra ∧
    (callOrAssign σ ra (σ ra)).1 = σ ∧
    (callAndAssign σ ra (σ ra)).1 = σ := by
  have ho : (callOrAssign σ ra (σ ra)).1 = σ := by
    show σ.write ra ((σ ra).orAssign (σ ra)) = σ
    rw [EnumSet.orAssign_eq_or, EnumSet.or_self]
    exact EnumSet.Store.write_self σ ra
  have ha : (callAndAssign σ ra (σ ra)).1 = σ := by
    show σ.write ra ((σ ra).andAssign (σ ra)) = σ
    rw [EnumSet.andAssign_eq_and, EnumSet.and_self]
    exact EnumSet.Store.write_self σ ra
  exact ⟨EnumSet.and_self a, EnumSet.or_self a, by rw [ho], by rw [ha], ho, ha⟩

/-- C15: the double complement is the identity, `~(~a)` equals `a`, for every width `w`
of `U`, also below the width of `int`; over `unsigned char` the double complement of the
set of `Ready` stores 1 again. -/
theorem compl_compl (a : EnumSet T w) :
    a.compl.compl = a ∧
    ((EnumSet.ofEnum State.Ready : States).compl.compl).toUnderlying = 1 := by
  refine ⟨EnumSet.ext_value ?_, by decide⟩
  rw [EnumSet.compl_value, EnumSet.compl_value]
  have := a.isLt
  omega

/-- C19: the complement laws in the `w` bits of `U`: `a & ~a` is the default-constructed
set, so its boolean conversion is true; `a | ~a` is the full-bits set `~EnumSet()`; and
De Morgan holds, `~(a | b)` equals `~a & ~b` and `~(a & b)` equals `~a | ~b`. -/
theorem compl_laws (a b : EnumSet T w) :
    a.and a.compl = EnumSet.empty ∧
    (a.and a.compl).toBool = true ∧
    a.or a.compl = EnumSet.empty.compl ∧
    (a.or b).compl = a.compl.and b.compl ∧
    (a.and b).compl = a.compl.or b.compl := by
  have h1 : a.and a.compl = EnumSet.empty := by
    refine EnumSet.ext_value (Nat.eq_of_testBit_eq ?_)
    intro k
    rw [EnumSet.and_value, Nat.testBit_and, EnumSet.compl_testBit, EnumSet.empty_value,
      Nat.zero_testBit]
    cases a.value.testBit k <;> simp
  refine ⟨h1, by rw [h1]; rfl, ?_, ?_, ?_⟩
  · refine EnumSet.ext_value (Nat.eq_of_testBit_eq ?_)
    intro k
    rw [EnumSet.or_value, Nat.testBit_or, EnumSet.compl_testBit, EnumSet.compl_testBit,
      EnumSet.empty_value, Nat.zero_testBit]
    by_cases hk : k < w
    · cases a.value.testBit k <;> simp [hk]
    · simp [hk, a.testBit_eq_false_of_le (Nat.le_of_not_lt hk)]
  · refine EnumSet.ext_value (Nat.eq_of_testBit_eq ?_)
    intro k
    rw [EnumSet.compl_testBit, EnumSet.or_value, Nat.testBit_or, EnumSet.and_value,
      Nat.testBit_and, EnumSet.compl_testBit, EnumSet.compl_testBit]
    cases a.value.testBit k <;> cases b.value.testBit k <;> simp
  · refine EnumSet.ext_value (Nat.eq_of_testBit_eq ?_)
    intro k
    rw [EnumSet.compl_testBit, EnumSet.and_value, Nat.testBit_and, EnumSet.or_value,
      Nat.testBit_or, EnumSet.compl_testBit, EnumSet.compl_testBit]
    cases a.value.testBit k <;> cases b.value.testBit k <;> simp

/-- C17: union and intersection preserve validity.  When the enumerator patterns of `T`
are pairwise binary exclusive and `a`, `b` store the bitwise OR of the patterns of the
subsets `A`, `B` of enumerators, then `a | b` stores the OR of the union of `A` and `B`
and `a & b` stores the OR of their intersection, and so does the receiver after `|=` and
`&=`.  Without exclusivity the intersection part fails: for the enumerators 3 and 6 the
intersection of the two singleton sets stores 2, which is not the OR of the empty
subset and is no combination of enumerator patterns at all. -/
theorem or_and_preserve_combination [EnumType T] (h : BinaryExclusive T w)
    (a b : EnumSet T w) (A B AB : List T) (AnB : List T)
    (ha : a.value = orAll w A) (hb : b.value = orAll w B)
    (hU : ∀ x, x ∈ AB ↔ x ∈ A ∨ x ∈ B) (hI : ∀ x, x ∈ AnB ↔ x ∈ A ∧ x ∈ B) :
    (a.or b).value = orAll w AB ∧
    (a.and b).value = orAll w AnB ∧
    (a.orAssign b).value = orAll w AB ∧
    (a.andAssign b).value = orAll w AnB ∧
    (¬ BinaryExclusive Overlap 8 ∧
      (EnumSet.ofEnum Overlap.Low : EnumSet Overlap 8).value = orAll 8 [Overlap.Low] ∧
      (EnumSet.ofEnum Overlap.High : EnumSet Overlap 8).value = orAll 8 [Overlap.High] ∧
      ((EnumSet.ofEnum Overlap.Low).and (EnumSet.ofEnum Overlap.High) :
        EnumSet Overlap 8).value = 2 ∧
      orAll 8 ([] : List Overlap) = 0 ∧
      ¬ IsCombination ((EnumSet.ofEnum Overlap.Low).and (EnumSet.ofEnum Overlap.High) :
        EnumSet Overlap 8)) := by
  classical
  have hor : (a.or b).value = orAll w AB := by
    rw [EnumSet.or_value, ha, hb, ← orAll_append]
    exact orAll_congr (fun x => by rw [List.mem_append, hU])
  have hand : (a.and b).value = orAll w AnB := by
    rw [EnumSet.and_value, ha, hb, orAll_and_orAll h]
    exact orAll_congr (fun x => by simp [List.mem_filter, hI])
  refine ⟨hor, hand, hor, hand, ?_, by decide, by decide, by decide, by decide, ?_⟩
  · intro hex
    exact absurd (hex Overlap.Low Overlap.High (by decide)) (by decide)
  · rintro ⟨l, hl⟩
    have h2 : ((EnumSet.ofEnum Overlap.Low).and (EnumSet.ofEnum Overlap.High) :
        EnumSet Overlap 8).value = 2 := by decide
    rw [h2] at hl
    rcases overlap_orAll_cases l with e | e | e | e <;> omega

/-- Witness of C17 on the documented enum: `Ready | Waiting` and `Waiting | Done`, whose
union is all three enumerators and whose intersection is `Waiting`. -/
theorem or_and_preserve_combination_witness :
    BinaryExclusive State 8 ∧
    (((EnumSet.ofEnum State.Ready).or (EnumSet.ofEnum State.Waiting)).or
      ((EnumSet.ofEnum State.Waiting).or (EnumSet.ofEnum State.Done)) : States).value
      = orAll 8 [State.Ready, State.Waiting, State.Done] ∧
    (((EnumSet.ofEnum State.Ready).or (EnumSet.ofEnum State.Waiting)).and
      ((EnumSet.ofEnum State.Waiting).or (EnumSet.ofEnum State.Done)) : States).value
      = orAll 8 [State.Waiting] :=
  have hw := or_and_preserve_combination state_binaryExclusive
    ((EnumSet.ofEnum State.Ready).or (EnumSet.ofEnum State.Waiting) : States)
    ((EnumSet.ofEnum State.Waiting).or (EnumSet.ofEnum State.Done) : States)
    [State.Ready, State.Waiting] [State.Waiting, State.Done]
    [State.Ready, State.Waiting, State.Done] [State.Waiting]
    (by decide) (by decide)
    (by intro x; cases x <;> decide) (by intro x; cases x <;> decide)
  ⟨state_binaryExclusive, hw.1, hw.2.1⟩

/-- C18: polarity of the membership test.  For an enumerator `v` whose pattern is the
single bit `k`, the boolean conversion of `s & v`, and of `v & s` through the free
operator, is true exactly when bit `k` is not set in `s` and false exactly when `v` is
contained in `s`; and the boolean conversion of `a | b` is true exactly when those of
`a` and of `b` both are. -/
theorem toBool_and_polarity [EnumType T] (v : T) (k : Nat) (hv : pattern w v = 2 ^ k)
    (s a b : EnumSet T w) :
    ((s.and (EnumSet.ofEnum v)).toBool = true ↔ s.value.testBit k = false) ∧
    ((s.and (EnumSet.ofEnum v)).toBool = false ↔ s.value.testBit k = true) ∧
    ((s.and (EnumSet.ofEnum v)).toBool = false ↔ s.value &&& pattern w v = pattern w v) ∧
    ((enumAnd v s).toBool = true ↔ s.value.testBit k = false) ∧
    ((enumAnd v s).toBool = false ↔ s.value.testBit k = true) ∧
    ((a.or b).toBool = true ↔ a.toBool = true ∧ b.toBool = true) := by
  have hval : (s.and (EnumSet.ofEnum v)).value = s.value &&& 2 ^ k := by
    rw [EnumSet.and_value, EnumSet.ofEnum_value, hv]
  have ht : (s.and (EnumSet.ofEnum v)).toBool = true ↔ s.value.testBit k = false := by
    simp only [EnumSet.toBool, beq_iff_eq, hval]
    exact nat_and_two_pow_eq_zero
  have hf : (s.and (EnumSet.ofEnum v)).toBool = false ↔ s.value.testBit k = true := by
    rw [← Bool.not_eq_true, ht, Bool.not_eq_false]
  refine ⟨ht, hf, ?_, ht, hf, ?_⟩
  · rw [hf, hv]
    exact nat_and_two_pow_eq_self.symm
  · simp only [EnumSet.toBool, beq_iff_eq, EnumSet.or_value]
    exact nat_or_eq_zero

/-- Witness of C18 on the documented enum: `Waiting` is bit 1, contained in
`Ready | Waiting`, so the membership test converts to false. -/
theorem toBool_and_polarity_witness :
    pattern 8 State.Waiting = 2 ^ 1 ∧
    (enumAnd State.Waiting
      ((EnumSet.ofEnum State.Ready).or (EnumSet.ofEnum State.Waiting) : States)).toBool
      = false ∧
    (enumAnd State.Done
      ((EnumSet.ofEnum State.Ready).or (EnumSet.ofEnum State.Waiting) : States)).toBool
      = true :=
  ⟨by decide,
    (toBool_and_polarity State.Waiting 1 (by decide)
      ((EnumSet.ofEnum State.Ready).or (EnumSet.ofEnum State.Waiting) : States)
      EnumSet.empty EnumSet.empty).2.2.2.2.1.mpr (by decide),
    by decide⟩

end Claims

end Containers

namespace Utility

/-- C16: the four fixtures of the test reproduce on the modelled hash: with seed 23 the
32-bit variant maps the 6 bytes of "string" to 3435905073 and the 4 bytes of "four" to
2072697618, the 64-bit variant maps the 6 bytes of "string" to 7441339218310318127 and
the 8 bytes of "eightbit" to 14685337704530366946, so both tests pass. -/
theorem murmurHash2_fixtures :
    MurmurHash2Implementation 4 23 (cString "string") 6 = some 3435905073 ∧
    MurmurHash2Implementation 4 23 (cString "four") 4 = some 2072697618 ∧
    MurmurHash2Implementation 8 23 (cString "string") 6 = some 7441339218310318127 ∧
    MurmurHash2Implementation 8 23 (cString "eightbit") 8 = some 14685337704530366946 ∧
    test32 = true ∧ test64 = true :=
  ⟨by decide, by decide, by decide, by decide, by decide, by decide⟩

end Utility
end Corrade
